import Mathlib

/-!
Shallow embedding of the nifi-automation reconciliation tool.

The embedded code comes from three Python sources:
* `action.py` — orchestration logic: `update_process_group` (the
  Version-Change Driver), `import_process_group` (the Import Executor),
  `traverse_process_groups` (breadth-first Tree Resolver) and `do_execute`
  (the Reconciliation Decider);
* `nifi_client.py` — the flow-management API client; the only piece of
  logic embedded from it is `get_suggested_process_group_position`
  (the Layout Planner); the remaining methods are thin HTTP wrappers and
  are modelled as an environment (`Env`) holding the server responses,
  together with an explicit trace of the API calls that were issued;
* `registry_client.py` — thin HTTP wrappers (`get_buckets`, `get_flows`),
  likewise modelled through the environment.

The server-side process-group hierarchy is modelled as a finite rose tree
(`PGTree`); each `get_process_group(pgid)` call of the traversal is one
visit of a node.  Machine-level concerns (floats for `time.monotonic`) are
modelled with `Int` clock readings; the polling loop, which need not
terminate, takes explicit fuel and returns `none` when the fuel runs out
(the Python program would still be looping at that point).
-/

namespace Nifi

/-- The fields of a flow view of a process group that `do_execute` and
`traverse_process_groups` actually read: `processGroupFlow.id` and
`processGroupFlow.breadcrumb.breadcrumb.name`. -/
structure PGView where
  id : String
  name : String
deriving DecidableEq, Repr

/-- Server-side process-group hierarchy: a node has an id, a display name
and the list of direct child groups reported by the server
(`processGroupFlow.flow.processGroups`). -/
inductive PGTree where
  | mk (id : String) (name : String) (children : List PGTree)

def PGTree.id : PGTree → String
  | .mk i _ _ => i

def PGTree.name : PGTree → String
  | .mk _ n _ => n

def PGTree.children : PGTree → List PGTree
  | .mk _ _ cs => cs

def PGTree.view : PGTree → PGView
  | .mk i n _ => { id := i, name := n }

/-- Total number of nodes of all trees in a list (used as the termination
measure of the breadth-first queue recursion). -/
def sizeL : List PGTree → Nat
  | [] => 0
  | .mk _ _ cs :: ts => 1 + sizeL cs + sizeL ts

/-- A component with a position, as read by
`NifiClient.get_suggested_process_group_position`
(`comp["position"]["x"]`, `comp["position"]["y"]`). -/
structure Component where
  x : Int
  y : Int
deriving DecidableEq, Repr

/-- The eight component lists of a flow listing
(`response.json()["processGroupFlow"]["flow"]`) that
`get_suggested_process_group_position` concatenates. -/
structure FlowListing where
  processGroups : List Component
  remoteProcessGroups : List Component
  processors : List Component
  inputPorts : List Component
  outputPorts : List Component
  connections : List Component
  labels : List Component
  funnels : List Component
deriving DecidableEq, Repr

/-- The concatenation `components` built by
`get_suggested_process_group_position` (nifi_client.py lines 83-92). -/
def FlowListing.components (f : FlowListing) : List Component :=
  f.processGroups ++ f.remoteProcessGroups ++ f.processors ++ f.inputPorts ++
    f.outputPorts ++ f.connections ++ f.labels ++ f.funnels

/-- Version-control binding of a process group
(`details["component"]["versionControlInformation"]`). -/
structure VCI where
  registryId : String
  bucketId : String
  flowId : String
  version : Int
deriving DecidableEq, Repr

/-- The fields of `get_process_group_details` that `update_process_group`
reads: the id, the revision token (opaque; modelled as a string) and the
version-control binding. -/
structure PGDetails where
  id : String
  revision : String
  vci : VCI
deriving DecidableEq, Repr

/-- One response of `get_update_request_status`
(`request_status["request"]`). -/
structure Status where
  complete : Bool
  percentCompleted : Int
deriving DecidableEq, Repr

/-- A registry client connection as read by `do_execute` and
`import_process_group`: `registry["id"]` and
`registry["component"]["name"]`. -/
structure RegistryClientEntity where
  id : String
  name : String
deriving DecidableEq, Repr

/-- A registry bucket (`b["identifier"]`, `b["name"]`). -/
structure Bucket where
  identifier : String
  name : String
deriving DecidableEq, Repr

/-- A registry flow (`f["identifier"]`, `f["name"]`). -/
structure RegFlow where
  identifier : String
  name : String
deriving DecidableEq, Repr

/-- The fields of the `create_process_group` response that
`import_process_group` reads: `details["id"]` and `details["revision"]`. -/
structure CreateResp where
  id : String
  revision : String
deriving DecidableEq, Repr

/-- One API call issued against the NiFi or registry server.  Read-only
calls carry their argument; mutating calls additionally carry the request
payload fields the embedded code fills in. -/
inductive Call where
  | getProcessGroup (pgid : String)
  | getProcessGroupDetails (pgid : String)
  | createVersionChangeRequest (pgid : String) (revision : String) (versionInfo : VCI)
  | getUpdateRequestStatus (requestId : String)
  | getBuckets
  | getFlows (bucketId : String)
  | getRegistryClients
  | createProcessGroup (parent : String) (registryId : String) (bucketId : String)
      (flowId : String) (version : Int) (posX : Int) (posY : Int)
  | changeProcessGroupName (pgid : String) (newName : String) (revision : String)
deriving DecidableEq, Repr

/-- Calls that mutate server state (POST of a version-change request,
creation of a process group, rename of a process group). -/
def Call.isMutating : Call → Bool
  | .createVersionChangeRequest _ _ _ => true
  | .createProcessGroup _ _ _ _ _ _ _ => true
  | .changeProcessGroupName _ _ _ => true
  | _ => false

/-- Calls that belong to the import branch: registry queries and the
two import mutations. -/
def Call.isImportish : Call → Bool
  | .getBuckets => true
  | .getFlows _ => true
  | .getRegistryClients => true
  | .createProcessGroup _ _ _ _ _ _ _ => true
  | .changeProcessGroupName _ _ _ => true
  | _ => false

def Call.isCreateVersionChange : Call → Bool
  | .createVersionChangeRequest _ _ _ => true
  | _ => false

def Call.isGetDetails : Call → Bool
  | .getProcessGroupDetails _ => true
  | _ => false

def Call.isGetStatus : Call → Bool
  | .getUpdateRequestStatus _ => true
  | _ => false

def Call.isCreatePG : Call → Bool
  | .createProcessGroup _ _ _ _ _ _ _ => true
  | _ => false

/-- The registry id carried by a create-process-group call, if any. -/
def Call.registryIdOf : Call → Option String
  | .createProcessGroup _ r _ _ _ _ _ => some r
  | _ => none

/-- Progress output (the print statements of action.py). -/
inductive Event where
  | upgradeBanner (id : String) (currentVersion : Int) (desiredVersion : Int)
  | upgradeStarting
  | upgradeProgress (pct : Int)
  | upgradeDone
  | importBanner (name : String) (version : Int) (bucketId : String) (flowId : String)
      (registryId : String) (parent : String)
  | importDone
deriving DecidableEq, Repr

/-- Errors raised by the embedded code.  `nifiError` is `NifiError` from
common.py; `typeError` is a Python `TypeError` (raised for example when a
`str` is concatenated with a `dict`, as on action.py line 35). -/
inductive Err where
  | nifiError (msg : String)
  | typeError (msg : String)
deriving DecidableEq, Repr

inductive Outcome where
  | ok (pgid : String)
  | err (e : Err)
deriving DecidableEq, Repr

/-- Result of one run of an embedded function: the trace of API calls, the
progress output and the returned value or raised error. -/
structure RunResult where
  calls : List Call
  events : List Event
  result : Outcome
deriving DecidableEq, Repr

/-- The CLI arguments that `do_execute` reads from `args`. -/
structure Args where
  processGroupName : String
  version : Int
  bucket : Option String
  flow : Option String
  parent : Option String
  registry : Option String
deriving DecidableEq, Repr

/-- The environment: the server responses the thin HTTP wrappers of
nifi_client.py and registry_client.py would return.  Function-valued
fields give the response of the n-th call or the response for a given
argument. -/
structure Env where
  tree : PGTree
  detailsOf : String → PGDetails
  requestId : String
  status : Nat → Status
  clock : Nat → Int
  registries : List RegistryClientEntity
  listing : String → FlowListing
  createResp : CreateResp
  renameRespId : String
  buckets : List Bucket
  flowsOf : String → List RegFlow

/-- Python truthiness of an optional string argument: `None` and the empty
string are falsy (`if not args[...]:`). -/
def optFalsy : Option String → Bool
  | none => true
  | some s => s == ""

/-- Embedding of `traverse_process_groups` (action.py lines 81-88): a
breadth-first traversal over a queue of pending subtrees; the head of the
queue is visited (`yield current_group`) and its direct children are
appended at the back. -/
def traverse_process_groups : List PGTree → List PGView
  | [] => []
  | t :: q => t.view :: traverse_process_groups (q ++ t.children)
termination_by q => sizeL q
decreasing_by
  have happ : ∀ a b : List PGTree, sizeL (a ++ b) = sizeL a + sizeL b := by
    intro a b
    induction a with
    | nil => simp [sizeL]
    | cons x xs ih => cases x; simp [sizeL, ih]; omega
  cases t with
  | mk i n cs => simp [happ, sizeL, PGTree.children]; omega

/-- The name search of `do_execute` (action.py lines 97-100): first element
of the breadth-first traversal whose breadcrumb name equals the target,
`None` when there is none.  The spec calls this contract `find_by_name`. -/
def find_by_name (t : PGTree) (target : String) : Option PGView :=
  (traverse_process_groups [t]).find? fun v => v.name == target

/-- The same search together with the trace of `get_process_group` calls it
performs: the generator in `do_execute` is lazy, so traversal stops at the
first match. -/
def findGroup (target : String) : List PGTree → List Call × Option PGView
  | [] => ([], none)
  | t :: q =>
    if t.name == target then ([Call.getProcessGroup t.id], some t.view)
    else
      let r := findGroup target (q ++ t.children)
      (Call.getProcessGroup t.id :: r.1, r.2)
termination_by q => sizeL q
decreasing_by
  have happ : ∀ a b : List PGTree, sizeL (a ++ b) = sizeL a + sizeL b := by
    intro a b
    induction a with
    | nil => simp [sizeL]
    | cons x xs ih => cases x; simp [sizeL, ih]; omega
  cases t with
  | mk i n cs => simp [happ, sizeL, PGTree.children]; omega

/-- Ghost variant of the traversal that annotates every visited node with
its depth (the root of the search is at depth 0).  Not part of the source;
used only to state and prove depth properties of the traversal. -/
def traverseD : List (Nat × PGTree) → List (Nat × PGView)
  | [] => []
  | (d, t) :: q => (d, t.view) :: traverseD (q ++ t.children.map fun c => (d + 1, c))
termination_by q => sizeL (q.map Prod.snd)
decreasing_by
  have happ : ∀ a b : List PGTree, sizeL (a ++ b) = sizeL a + sizeL b := by
    intro a b
    induction a with
    | nil => simp [sizeL]
    | cons x xs ih => cases x; simp [sizeL, ih]; omega
  have hmap : ∀ (d : Nat) (cs : List PGTree),
      (cs.map fun c => (d, c)).map Prod.snd = cs := by
    intro d cs
    induction cs with
    | nil => simp
    | cons x xs ih => simp [ih]
  cases t with
  | mk i n cs =>
    simp [List.map_append, happ, hmap, sizeL, PGTree.children]
    omega

mutual

/-- All nodes of a tree annotated with their depth (preorder listing).
Not part of the source; used only to state depth properties. -/
def withDepths (d : Nat) : PGTree → List (Nat × PGView)
  | .mk i n cs => (d, { id := i, name := n }) :: withDepthsL (d + 1) cs

/-- All nodes of a forest annotated with their depth, all roots at `d`. -/
def withDepthsL (d : Nat) : List PGTree → List (Nat × PGView)
  | [] => []
  | t :: ts => withDepths d t ++ withDepthsL d ts

end

/-- All depth-annotated nodes of an annotated forest, in queue order.
Not part of the source; used only to state depth properties. -/
def allNodes : List (Nat × PGTree) → List (Nat × PGView)
  | [] => []
  | (d, t) :: q => withDepths d t ++ allNodes q

/-- Embedding of `NifiClient.get_suggested_process_group_position`
(nifi_client.py lines 73-100), as a function of the flow listing the
server returns: on an empty component set the origin, otherwise the
maximal x plus 380 plus 50 and the minimal y over all components
(`max`/`min` of a nonempty list, folded from its head). -/
def get_suggested_process_group_position (f : FlowListing) : Int × Int :=
  match f.components with
  | [] => (0, 0)
  | c :: cs =>
    ((cs.map Component.x).foldl max c.x + 380 + 50,
     (cs.map Component.y).foldl min c.y)

/-- The polling loop of `update_process_group` (action.py lines 25-32).
Arguments: fuel, the index `i` of the current status (the i-th
`get_update_request_status` response), the current status, the call trace
and events so far.  One iteration: if the status is complete the loop
exits; otherwise the progress is reported, the clock is read
(`env.clock (i + 1)`) and compared against the timeout — on timeout the
loop breaks without a fresh status fetch — else the next status is
fetched and the loop repeats. -/
def pollLoop (env : Env) (timeout : Int) (startTime : Int) :
    Nat → Nat → Status → List Call → List Event →
    Option (List Call × List Event × Status)
  | 0, _, _, _, _ => none
  | fuel + 1, i, st, calls, evs =>
    if st.complete then some (calls, evs, st)
    else
      let evs2 := evs ++ [Event.upgradeProgress st.percentCompleted]
      if env.clock (i + 1) - startTime > timeout then some (calls, evs2, st)
      else
        pollLoop env timeout startTime fuel (i + 1) (env.status (i + 1))
          (calls ++ [Call.getUpdateRequestStatus env.requestId]) evs2

/-- Embedding of `update_process_group` (action.py lines 10-38), the
Version-Change Driver.  It reads the group details, prints the upgrade
banner, issues the change-version request carrying the revision token of
that read and the existing version-control binding with only the version
field replaced, reads the start time (`env.clock 0`), fetches the first
status and polls.  After the loop, if the last fetched status is still
incomplete, line 35 evaluates `"..." + request_status` where
`request_status` is a dict — a Python `TypeError`, modelled as
`Err.typeError`; otherwise it prints Done and returns the given pgid.
`fuel` bounds the number of loop iterations; `none` means the Python loop
would still be running. -/
def update_process_group (env : Env) (pgid : String) (version : Int)
    (timeout : Int) (fuel : Nat) : Option RunResult :=
  let details := env.detailsOf pgid
  let revision_info := details.revision
  let version_info : VCI := { details.vci with version := version }
  let calls0 : List Call :=
    [Call.getProcessGroupDetails pgid,
     Call.createVersionChangeRequest pgid revision_info version_info,
     Call.getUpdateRequestStatus env.requestId]
  let evs0 : List Event :=
    [Event.upgradeBanner details.id details.vci.version version,
     Event.upgradeStarting]
  match pollLoop env timeout (env.clock 0) fuel 0 (env.status 0) calls0 evs0 with
  | none => none
  | some (calls, evs, last) =>
    if last.complete then
      some { calls := calls, events := evs ++ [Event.upgradeDone], result := Outcome.ok pgid }
    else
      some { calls := calls, events := evs,
             result := Outcome.err (Err.typeError "can only concatenate str (not dict) to str") }

/-- The part of `import_process_group` after the registry-client
resolution (action.py lines 52-78): resolve the parent (the root when the
argument is falsy), resolve the position (suggested next to the bounding
box of the parent listing when the argument is absent), create the child
group, print, and rename the created group with the revision returned by
the create call.  Returns the id field of the rename response. -/
def importResolved (env : Env) (name : String) (bucket_id flow_id : String)
    (version : Int) (parent_pgid : Option String) (registry_id : String)
    (position : Option (Int × Int)) (calls0 : List Call) : RunResult :=
  let pr : List Call × String :=
    if optFalsy parent_pgid then ([Call.getProcessGroup "root"], env.tree.id)
    else ([], parent_pgid.getD "")
  let parent := pr.2
  let pp : List Call × Int × Int :=
    match position with
    | some p => ([], p)
    | none => ([Call.getProcessGroup parent],
        get_suggested_process_group_position (env.listing parent))
  let pos := pp.2
  { calls := calls0 ++ pr.1 ++ pp.1 ++
      [Call.createProcessGroup parent registry_id bucket_id flow_id version pos.1 pos.2,
       Call.changeProcessGroupName env.createResp.id name env.createResp.revision]
    events := [Event.importBanner name version bucket_id flow_id registry_id parent,
               Event.importDone]
    result := Outcome.ok env.renameRespId }

/-- Embedding of `import_process_group` (action.py lines 41-78), the
Import Executor.  A falsy `registry_client` argument requires the server
to report exactly one registry client (`len(registries) != 1` raises),
whose id is then used (`registries[0]["id"]`). -/
def import_process_group (env : Env) (name : String) (bucket_id flow_id : String)
    (version : Int) (parent_pgid : Option String) (registry_client : Option String)
    (position : Option (Int × Int)) : RunResult :=
  if optFalsy registry_client then
    match env.registries with
    | [reg] =>
      importResolved env name bucket_id flow_id version parent_pgid reg.id position
        [Call.getRegistryClients]
    | _ =>
      { calls := [Call.getRegistryClients]
        events := []
        result := Outcome.err (Err.nifiError
          "Import Process Group: must provide registry client if clients are not unique.") }
  else
    importResolved env name bucket_id flow_id version parent_pgid
      (registry_client.getD "") position []

/-- The tail of the import branch of `do_execute` (action.py lines
123-136): optional parent resolution by a second traversal, then the call
to `import_process_group` (with `position` never supplied). -/
def doImportPhase (env : Env) (args : Args) (bucket : Bucket) (flow : RegFlow)
    (calls0 : List Call) (target_registry : Option String) : Option RunResult :=
  if optFalsy args.parent then
    let ir := import_process_group env args.processGroupName bucket.identifier
      flow.identifier args.version none target_registry none
    some { calls := calls0 ++ ir.calls, events := ir.events, result := ir.result }
  else
    let pname := args.parent.getD ""
    let pg := findGroup pname [env.tree]
    match pg.2 with
    | none =>
      some { calls := calls0 ++ pg.1, events := [],
             result := Outcome.err (Err.nifiError
               ("Parent Processor Group " ++ pname ++ " does not exists")) }
    | some parent_group =>
      let ir := import_process_group env args.processGroupName bucket.identifier
        flow.identifier args.version (some parent_group.id) target_registry none
      some { calls := calls0 ++ pg.1 ++ ir.calls, events := ir.events, result := ir.result }

/-- Embedding of `do_execute` (action.py lines 91-139), the Reconciliation
Decider.  It fetches the root id, searches the tree for the target name;
if found it delegates to `update_process_group` with the found id and the
target version (timeout 30, the source default); otherwise it runs
the import branch: `--bucket`/`--flow` presence check, bucket resolution by
exact name, flow resolution by exact name within the bucket, optional
registry-client resolution by exact name, optional parent resolution by a
second traversal, then `import_process_group`. -/
def do_execute (env : Env) (args : Args) (fuel : Nat) : Option RunResult :=
  let fg := findGroup args.processGroupName [env.tree]
  let callsT := Call.getProcessGroup "root" :: fg.1
  match fg.2 with
  | some target_group =>
    match update_process_group env target_group.id args.version 30 fuel with
    | none => none
    | some r => some { calls := callsT ++ r.calls, events := r.events, result := r.result }
  | none =>
    if optFalsy args.bucket || optFalsy args.flow then
      some { calls := callsT, events := [],
             result := Outcome.err (Err.nifiError
               "Importing Process Group needs --bucket and --flow defined") }
    else
      let bname := args.bucket.getD ""
      let fname := args.flow.getD ""
      let callsB := callsT ++ [Call.getBuckets]
      match env.buckets.find? fun b => b.name == bname with
      | none =>
        some { calls := callsB, events := [],
               result := Outcome.err (Err.nifiError
                 ("Importing Process Group: bucket " ++ bname ++ " does not exist")) }
      | some bucket =>
        let callsF := callsB ++ [Call.getFlows bucket.identifier]
        match (env.flowsOf bucket.identifier).find? fun f => f.name == fname with
        | none =>
          some { calls := callsF, events := [],
                 result := Outcome.err (Err.nifiError
                   ("Importing Process Group: flow " ++ fname ++ " does not exist")) }
        | some flow =>
          if optFalsy args.registry then
            doImportPhase env args bucket flow callsF none
          else
            let rname := args.registry.getD ""
            let callsR := callsF ++ [Call.getRegistryClients]
            match env.registries.find? fun rg => rg.name == rname with
            | none =>
              some { calls := callsR, events := [],
                     result := Outcome.err (Err.nifiError
                       ("Registry Client " ++ rname ++ " does not exist")) }
            | some client => doImportPhase env args bucket flow callsR (some client.id)

/-- An empty flow listing. -/
def emptyListing : FlowListing :=
  { processGroups := [], remoteProcessGroups := [], processors := [], inputPorts := [],
    outputPorts := [], connections := [], labels := [], funnels := [] }

/-- Listing with components at x 10, 100, 50 and y 5, 20, 2, spread over
three of the component categories. -/
def sampleListing : FlowListing :=
  { emptyListing with
    processGroups := [{ x := 10, y := 5 }],
    processors := [{ x := 100, y := 20 }],
    labels := [{ x := 50, y := 2 }] }

/-- Environment for the success scenario of the Version-Change Driver:
statuses incomplete at 10 percent, incomplete at 55 percent, then
complete at 100 percent; the monotonic clock never advances. -/
def envC4 : Env :=
  { tree := PGTree.mk "root-id" "NiFi Flow" [],
    detailsOf := fun p =>
      { id := p, revision := "rev-1",
        vci := { registryId := "reg-1", bucketId := "bkt-1", flowId := "flw-1", version := 1 } },
    requestId := "req-1",
    status := fun n =>
      match n with
      | 0 => { complete := false, percentCompleted := 10 }
      | 1 => { complete := false, percentCompleted := 55 }
      | _ => { complete := true, percentCompleted := 100 },
    clock := fun _ => 0,
    registries := [{ id := "rc-1", name := "docker local" }],
    listing := fun _ => emptyListing,
    createResp := { id := "new-pg", revision := "rev-new" },
    renameRespId := "new-pg",
    buckets := [{ identifier := "bkt-1", name := "bucket one" }],
    flowsOf := fun _ => [{ identifier := "flw-1", name := "flow one" }] }

/-- Environment for the timeout scenario: the status is never complete and
the second monotonic reading jumps past the 30 second bound. -/
def envC3 : Env :=
  { envC4 with
    status := fun _ => { complete := false, percentCompleted := 0 },
    clock := fun n => match n with | 0 => 0 | _ => 40 }

/-- Arguments naming the existing root group, with import parameters
supplied (they must be ignored). -/
def argsUpg : Args :=
  { processGroupName := "NiFi Flow", version := 2, bucket := some "bx", flow := some "fx",
    parent := none, registry := some "rx" }

/-- Arguments naming the existing root group, with no import parameters. -/
def argsRoot : Args :=
  { processGroupName := "NiFi Flow", version := 2, bucket := none, flow := none,
    parent := none, registry := none }

/-- The run result of the upgrade branch on `envC4` for version 2. -/
def rUpg : RunResult :=
  { calls := [Call.getProcessGroup "root", Call.getProcessGroup "root-id",
              Call.getProcessGroupDetails "root-id",
              Call.createVersionChangeRequest "root-id" "rev-1"
                { registryId := "reg-1", bucketId := "bkt-1", flowId := "flw-1", version := 2 },
              Call.getUpdateRequestStatus "req-1", Call.getUpdateRequestStatus "req-1",
              Call.getUpdateRequestStatus "req-1"],
    events := [Event.upgradeBanner "root-id" 1 2, Event.upgradeStarting,
               Event.upgradeProgress 10, Event.upgradeProgress 55, Event.upgradeDone],
    result := Outcome.ok "root-id" }

/-- Arguments naming a missing group with the bucket parameter absent. -/
def argsC6 : Args :=
  { processGroupName := "missing", version := 2, bucket := none, flow := some "fx",
    parent := none, registry := none }

/-- The run result of the configuration-error branch on `envC4`. -/
def rC6 : RunResult :=
  { calls := [Call.getProcessGroup "root", Call.getProcessGroup "root-id"],
    events := [],
    result := Outcome.err (Err.nifiError
      "Importing Process Group needs --bucket and --flow defined") }

/-- Arguments naming a missing group with valid bucket and flow but a
registry name that matches no configured registry client. -/
def argsC7 : Args :=
  { processGroupName := "missing", version := 2, bucket := some "bucket one",
    flow := some "flow one", parent := none, registry := some "nope" }

/-- The run result of the registry-resolution-error branch on `envC4`. -/
def rC7 : RunResult :=
  { calls := [Call.getProcessGroup "root", Call.getProcessGroup "root-id", Call.getBuckets,
              Call.getFlows "bkt-1", Call.getRegistryClients],
    events := [],
    result := Outcome.err (Err.nifiError "Registry Client nope does not exist") }

/-- Environment with no registry client connections configured. -/
def envNoReg : Env :=
  { envC4 with registries := [] }

/-- The run result of the Version-Change Driver on `envC4` for group
pg-9 and version 4. -/
def rC9u : RunResult :=
  { calls := [Call.getProcessGroupDetails "pg-9",
              Call.createVersionChangeRequest "pg-9" "rev-1"
                { registryId := "reg-1", bucketId := "bkt-1", flowId := "flw-1", version := 4 },
              Call.getUpdateRequestStatus "req-1", Call.getUpdateRequestStatus "req-1",
              Call.getUpdateRequestStatus "req-1"],
    events := [Event.upgradeBanner "pg-9" 1 4, Event.upgradeStarting,
               Event.upgradeProgress 10, Event.upgradeProgress 55, Event.upgradeDone],
    result := Outcome.ok "pg-9" }

/-- A small tree: root alpha with children beta and gamma. -/
def tC2 : PGTree :=
  PGTree.mk "r" "alpha" [PGTree.mk "x" "beta" [], PGTree.mk "y" "gamma" []]

theorem PGTree.view_name (t : PGTree) : t.view.name = t.name := by
  cases t with
  | mk i n cs => rfl

theorem PGTree.view_id (t : PGTree) : t.view.id = t.id := by
  cases t with
  | mk i n cs => rfl

theorem sizeL_append (a b : List PGTree) : sizeL (a ++ b) = sizeL a + sizeL b := by
  induction a with
  | nil => simp [sizeL]
  | cons x xs ih => cases x; simp [sizeL, ih]; omega

/-- Strong-induction principle following the breadth-first queue recursion
on plain queues. -/
theorem queue_rec (P : List PGTree → Prop) (h0 : P [])
    (h1 : ∀ t q, P (q ++ t.children) → P (t :: q)) : ∀ q, P q := by
  suffices key : ∀ n q, sizeL q ≤ n → P q by
    intro q
    exact key (sizeL q) q le_rfl
  intro n
  induction n with
  | zero =>
    intro q hq
    match q with
    | [] => exact h0
    | .mk i na cs :: ts => simp [sizeL] at hq
  | succ n ih =>
    intro q hq
    match q with
    | [] => exact h0
    | .mk i na cs :: ts =>
      apply h1
      apply ih
      rw [sizeL_append]
      simp only [sizeL, PGTree.children] at hq ⊢
      omega

/-- Strong-induction principle following the breadth-first queue recursion
on depth-annotated queues. -/
theorem queueD_rec (P : List (Nat × PGTree) → Prop) (h0 : P [])
    (h1 : ∀ d t q, P (q ++ t.children.map fun c => (d + 1, c)) → P ((d, t) :: q)) :
    ∀ q, P q := by
  suffices key : ∀ n q, sizeL (q.map Prod.snd) ≤ n → P q by
    intro q
    exact key _ q le_rfl
  intro n
  induction n with
  | zero =>
    intro q hq
    match q with
    | [] => exact h0
    | (d, .mk i na cs) :: ts => simp [sizeL] at hq
  | succ n ih =>
    intro q hq
    match q with
    | [] => exact h0
    | (d, .mk i na cs) :: ts =>
      apply h1
      apply ih
      rw [List.map_append, sizeL_append]
      have hm : ((cs.map fun c => (d + 1, c)).map Prod.snd) = cs := by simp
      simp only [PGTree.children, hm]
      simp only [List.map_cons, sizeL] at hq
      omega

/-- In a list that is pairwise ordered by `R`, the first element found by
`find?` is related by `R` to (or equal to) every element satisfying the
predicate. -/
theorem find?_first_min {α : Type} {R : α → α → Prop} (p : α → Bool) :
    ∀ l : List α, l.Pairwise R → ∀ a, l.find? p = some a → ∀ b ∈ l, p b = true →
      a = b ∨ R a b := by
  intro l
  induction l with
  | nil =>
    intro _ a ha
    simp at ha
  | cons x xs ih =>
    intro hpw a ha b hb hpb
    rcases List.pairwise_cons.mp hpw with ⟨hx, hxs⟩
    by_cases hpx : p x = true
    · rw [List.find?_cons_of_pos _ hpx] at ha
      have hax : a = x := (Option.some.inj ha).symm
      rcases List.mem_cons.mp hb with hbx | hbxs
      · left
        rw [hax, hbx]
      · right
        rw [hax]
        exact hx b hbxs
    · rw [List.find?_cons_of_neg _ hpx] at ha
      rcases List.mem_cons.mp hb with hbx | hbxs
      · exact absurd (hbx ▸ hpb) hpx
      · exact ih hxs a ha b hbxs hpb

/-- Every call issued by the lazy name search is a read of a process
group. -/
theorem findGroup_calls (target : String) :
    ∀ q, ∀ c ∈ (findGroup target q).1, ∃ p, c = Call.getProcessGroup p := by
  refine queue_rec (fun q => ∀ c ∈ (findGroup target q).1, ∃ p, c = Call.getProcessGroup p) ?_ ?_
  · intro c hc
    simp [findGroup] at hc
  · intro t q ih c hc
    by_cases h : (t.name == target) = true
    · simp [findGroup, h] at hc
      exact ⟨t.id, hc⟩
    · simp [findGroup, h] at hc
      rcases hc with hc | hc
      · exact ⟨t.id, hc⟩
      · exact ih c hc

/-- The lazy name search returns exactly the first element of the
breadth-first traversal whose name matches. -/
theorem findGroup_snd (target : String) :
    ∀ q, (findGroup target q).2 =
      (traverse_process_groups q).find? fun v => v.name == target := by
  refine queue_rec
    (fun q => (findGroup target q).2 =
      (traverse_process_groups q).find? fun v => v.name == target) ?_ ?_
  · simp [findGroup, traverse_process_groups]
  · intro t q ih
    by_cases h : (t.name == target) = true
    · have hv : ((t.view).name == target) = true := by rw [PGTree.view_name]; exact h
      have h1 : (findGroup target (t :: q)).2 = some t.view := by simp [findGroup, h]
      have h2 : traverse_process_groups (t :: q) =
          t.view :: traverse_process_groups (q ++ t.children) := by
        simp [traverse_process_groups]
      rw [h1, h2]
      simp [List.find?, hv]
    · have hv : ((t.view).name == target) = false := by
        rw [PGTree.view_name]
        simpa using h
      have h1 : (findGroup target (t :: q)).2 = (findGroup target (q ++ t.children)).2 := by
        simp [findGroup, h]
      have h2 : traverse_process_groups (t :: q) =
          t.view :: traverse_process_groups (q ++ t.children) := by
        simp [traverse_process_groups]
      rw [h1, h2]
      simp only [List.find?, hv]
      exact ih

/-- The node part of the annotated traversal is the plain traversal. -/
theorem traverseD_map_snd :
    ∀ q : List (Nat × PGTree),
      (traverseD q).map Prod.snd = traverse_process_groups (q.map Prod.snd) := by
  refine queueD_rec
    (fun q => (traverseD q).map Prod.snd = traverse_process_groups (q.map Prod.snd)) ?_ ?_
  · simp [traverseD, traverse_process_groups]
  · intro d t q ih
    simp only [traverseD, List.map_cons]
    rw [ih]
    simp only [List.map_append, List.map_cons]
    rw [show traverse_process_groups (t :: q.map Prod.snd) =
      t.view :: traverse_process_groups (q.map Prod.snd ++ t.children) from by
        simp [traverse_process_groups]]
    congr 2
    simp

theorem allNodes_append (a b : List (Nat × PGTree)) :
    allNodes (a ++ b) = allNodes a ++ allNodes b := by
  induction a with
  | nil => simp [allNodes]
  | cons x xs ih =>
    obtain ⟨d, t⟩ := x
    simp [allNodes, ih]

theorem allNodes_pairs (d : Nat) (cs : List PGTree) :
    allNodes (cs.map fun c => (d, c)) = withDepthsL d cs := by
  induction cs with
  | nil => simp [allNodes, withDepthsL]
  | cons c cs ih => simp [allNodes, withDepthsL, ih]

/-- The breadth-first traversal is a permutation of the preorder node
listing: every node of every queued tree is visited exactly once. -/
theorem traverseD_perm : ∀ q, (traverseD q).Perm (allNodes q) := by
  refine queueD_rec (fun q => (traverseD q).Perm (allNodes q)) ?_ ?_
  · simp [traverseD, allNodes]
  · intro d t q ih
    cases t with
    | mk i n cs =>
      simp only [traverseD, allNodes, withDepths, PGTree.view, PGTree.children, List.cons_append]
      refine List.Perm.cons _ ?_
      simp only [PGTree.children] at ih
      have hstep : (traverseD (q ++ cs.map fun c => (d + 1, c))).Perm
          (allNodes q ++ withDepthsL (d + 1) cs) := by
        rw [allNodes_append, allNodes_pairs] at ih
        exact ih
      exact hstep.trans List.perm_append_comm

/-- Every node emitted by the annotated traversal is at least as deep as a
common lower bound of the queue. -/
theorem traverseD_lb :
    ∀ q, ∀ m : Nat, (∀ p ∈ q, m ≤ p.1) → ∀ x ∈ traverseD q, m ≤ x.1 := by
  refine queueD_rec (fun q => ∀ m, (∀ p ∈ q, m ≤ p.1) → ∀ x ∈ traverseD q, m ≤ x.1) ?_ ?_
  · intro m _ x hx
    simp [traverseD] at hx
  · intro d t q ih m hq x hx
    simp only [traverseD] at hx
    rcases List.mem_cons.mp hx with hx | hx
    · rw [hx]
      exact hq (d, t) (List.mem_cons_self _ _)
    · refine ih m ?_ x hx
      intro p hp
      rcases List.mem_append.mp hp with hp | hp
      · exact hq p (List.mem_cons_of_mem _ hp)
      · rcases List.mem_map.mp hp with ⟨c, _, rfl⟩
        have hd : m ≤ d := hq (d, t) (List.mem_cons_self _ _)
        exact Nat.le_succ_of_le hd

/-- Output depths of the annotated traversal are nondecreasing, provided
the queue depths are nondecreasing and within one of each other — the
breadth-first queue invariant. -/
theorem traverseD_sorted :
    ∀ q, q.Pairwise (fun a b => a.1 ≤ b.1) →
      (∀ a ∈ q, ∀ b ∈ q, b.1 ≤ a.1 + 1) →
      (traverseD q).Pairwise (fun a b => a.1 ≤ b.1) := by
  refine queueD_rec
    (fun q => q.Pairwise (fun a b => a.1 ≤ b.1) →
      (∀ a ∈ q, ∀ b ∈ q, b.1 ≤ a.1 + 1) →
      (traverseD q).Pairwise (fun a b => a.1 ≤ b.1)) ?_ ?_
  · intro _ _
    simp [traverseD]
  · intro d t q ih hpw hbnd
    rcases List.pairwise_cons.mp hpw with ⟨hhead, htail⟩
    simp only [traverseD]
    refine List.pairwise_cons.mpr ⟨?_, ?_⟩
    · intro x hx
      refine traverseD_lb _ d ?_ x hx
      intro p hp
      rcases List.mem_append.mp hp with hp | hp
      · exact hhead p hp
      · rcases List.mem_map.mp hp with ⟨c, _, rfl⟩
        exact Nat.le_succ d
    · refine ih ?_ ?_
      · refine List.pairwise_append.mpr ⟨htail, ?_, ?_⟩
        · have : ∀ cs2 : List PGTree,
              (cs2.map fun c => (d + 1, c)).Pairwise (fun a b => a.1 ≤ b.1) := by
            intro cs2
            induction cs2 with
            | nil => simp
            | cons c cs2 ih2 =>
              simp only [List.map_cons]
              refine List.pairwise_cons.mpr ⟨?_, ih2⟩
              intro b hb
              rcases List.mem_map.mp hb with ⟨c2, _, rfl⟩
              exact le_rfl
          exact this t.children
        · intro a ha b hb
          rcases List.mem_map.mp hb with ⟨c, _, rfl⟩
          have : a.1 ≤ d + 1 :=
            hbnd (d, t) (List.mem_cons_self _ _) a (List.mem_cons_of_mem _ ha)
          exact this
      · intro a ha b hb
        rcases List.mem_append.mp ha with ha | ha
        · rcases List.mem_append.mp hb with hb | hb
          · exact hbnd a (List.mem_cons_of_mem _ ha) b (List.mem_cons_of_mem _ hb)
          · rcases List.mem_map.mp hb with ⟨c, _, rfl⟩
            have hda : d ≤ a.1 := hhead a ha
            simpa using Nat.succ_le_succ hda
        · rcases List.mem_map.mp ha with ⟨c, _, rfl⟩
          rcases List.mem_append.mp hb with hb | hb
          · have : b.1 ≤ d + 1 :=
              hbnd (d, t) (List.mem_cons_self _ _) b (List.mem_cons_of_mem _ hb)
            exact Nat.le_succ_of_le this
          · rcases List.mem_map.mp hb with ⟨c2, _, rfl⟩
            exact Nat.le_succ _

theorem le_foldl_max : ∀ (l : List Int) (a : Int), a ≤ l.foldl max a := by
  intro l
  induction l with
  | nil => intro a; simp
  | cons b l ih =>
    intro a
    simp only [List.foldl_cons]
    exact le_trans (le_max_left a b) (ih (max a b))

theorem mem_le_foldl_max : ∀ (l : List Int) (a x : Int), x ∈ l → x ≤ l.foldl max a := by
  intro l
  induction l with
  | nil =>
    intro a x hx
    simp at hx
  | cons b l ih =>
    intro a x hx
    simp only [List.foldl_cons]
    rcases List.mem_cons.mp hx with h | h
    · rw [h]
      exact le_trans (le_max_right a b) (le_foldl_max l (max a b))
    · exact ih (max a b) x h

theorem foldl_max_mem : ∀ (l : List Int) (a : Int), l.foldl max a = a ∨ l.foldl max a ∈ l := by
  intro l
  induction l with
  | nil => intro a; left; rfl
  | cons b l ih =>
    intro a
    simp only [List.foldl_cons]
    rcases ih (max a b) with h | h
    · rcases max_choice a b with hm | hm
      · left
        rw [h, hm]
      · right
        rw [h, hm]
        exact List.mem_cons_self _ _
    · right
      exact List.mem_cons_of_mem _ h

theorem foldl_min_le : ∀ (l : List Int) (a : Int), l.foldl min a ≤ a := by
  intro l
  induction l with
  | nil => intro a; simp
  | cons b l ih =>
    intro a
    simp only [List.foldl_cons]
    exact le_trans (ih (min a b)) (min_le_left a b)

theorem foldl_min_le_mem : ∀ (l : List Int) (a x : Int), x ∈ l → l.foldl min a ≤ x := by
  intro l
  induction l with
  | nil =>
    intro a x hx
    simp at hx
  | cons b l ih =>
    intro a x hx
    simp only [List.foldl_cons]
    rcases List.mem_cons.mp hx with h | h
    · rw [h]
      exact le_trans (foldl_min_le l (min a b)) (min_le_right a b)
    · exact ih (min a b) x h

theorem foldl_min_mem : ∀ (l : List Int) (a : Int), l.foldl min a = a ∨ l.foldl min a ∈ l := by
  intro l
  induction l with
  | nil => intro a; left; rfl
  | cons b l ih =>
    intro a
    simp only [List.foldl_cons]
    rcases ih (min a b) with h | h
    · rcases min_choice a b with hm | hm
      · left
        rw [h, hm]
      · right
        rw [h, hm]
        exact List.mem_cons_self _ _
    · right
      exact List.mem_cons_of_mem _ h

/-- Claim C5: for every parent group, the suggested position is (0,0) when
the set of server-reported components (child groups, remote groups,
processors, input/output ports, connections, labels, funnels) is empty,
and otherwise equals (max x over all components + 430, min y over all
components); in particular, components at x 10, 100, 50 and y 5, 20, 2
yield (530, 2). -/
theorem claim_C5 :
    (∀ f : FlowListing, f.components = [] →
      get_suggested_process_group_position f = (0, 0)) ∧
    (∀ f : FlowListing, f.components ≠ [] → ∃ mx my,
      get_suggested_process_group_position f = (mx + 430, my) ∧
      mx ∈ f.components.map Component.x ∧
      (∀ v ∈ f.components.map Component.x, v ≤ mx) ∧
      my ∈ f.components.map Component.y ∧
      (∀ v ∈ f.components.map Component.y, my ≤ v)) ∧
    get_suggested_process_group_position sampleListing = (530, 2) := by
  refine ⟨?_, ?_, ?_⟩
  · intro f h
    simp [get_suggested_process_group_position, h]
  · intro f h
    cases hc : f.components with
    | nil => exact absurd hc h
    | cons c cs =>
      refine ⟨(cs.map Component.x).foldl max c.x, (cs.map Component.y).foldl min c.y,
        ?_, ?_, ?_, ?_, ?_⟩
      · simp only [get_suggested_process_group_position, hc, Prod.mk.injEq, and_true]
        omega
      · simp only [List.map_cons]
        rcases foldl_max_mem (cs.map Component.x) c.x with h1 | h1
        · rw [h1]
          exact List.mem_cons_self _ _
        · exact List.mem_cons_of_mem _ h1
      · intro v hv
        simp only [List.map_cons] at hv
        rcases List.mem_cons.mp hv with h1 | h1
        · rw [h1]
          exact le_foldl_max _ _
        · exact mem_le_foldl_max _ _ _ h1
      · simp only [List.map_cons]
        rcases foldl_min_mem (cs.map Component.y) c.y with h1 | h1
        · rw [h1]
          exact List.mem_cons_self _ _
        · exact List.mem_cons_of_mem _ h1
      · intro v hv
        simp only [List.map_cons] at hv
        rcases List.mem_cons.mp hv with h1 | h1
        · rw [h1]
          exact foldl_min_le _ _
        · exact foldl_min_le_mem _ _ _ h1
  · rfl

/-- Witness for claim C5, at the empty listing and at the three-component
listing of the claim. -/
theorem claim_C5_witness :
    emptyListing.components = [] ∧
    get_suggested_process_group_position emptyListing = (0, 0) ∧
    sampleListing.components ≠ [] ∧
    (∃ mx my,
      get_suggested_process_group_position sampleListing = (mx + 430, my) ∧
      mx ∈ sampleListing.components.map Component.x ∧
      (∀ v ∈ sampleListing.components.map Component.x, v ≤ mx) ∧
      my ∈ sampleListing.components.map Component.y ∧
      (∀ v ∈ sampleListing.components.map Component.y, my ≤ v)) :=
  ⟨rfl, claim_C5.1 emptyListing rfl, by decide, claim_C5.2.1 sampleListing (by decide)⟩

/-- Claim C4: for the status sequence incomplete-10, incomplete-55,
complete-100 with timeout 30 and a clock that never advances, the
Version-Change Driver reports progress 10, then 55, then done, terminates
successfully and returns the group id it was given (for every group id and
target version). -/
theorem claim_C4 (pgid : String) (version : Int) :
    update_process_group envC4 pgid version 30 5 =
      some { calls := [Call.getProcessGroupDetails pgid,
                       Call.createVersionChangeRequest pgid "rev-1"
                         { registryId := "reg-1", bucketId := "bkt-1", flowId := "flw-1",
                           version := version },
                       Call.getUpdateRequestStatus "req-1",
                       Call.getUpdateRequestStatus "req-1",
                       Call.getUpdateRequestStatus "req-1"],
             events := [Event.upgradeBanner pgid 1 version, Event.upgradeStarting,
                        Event.upgradeProgress 10, Event.upgradeProgress 55,
                        Event.upgradeDone],
             result := Outcome.ok pgid } := rfl

/-- Claim C3, recorded as a code bug: on a run whose elapsed time exceeds
the timeout while the last fetched status is incomplete, the driver does
exit the polling loop without a fresh status fetch (exactly one
`get_update_request_status` call appears in the trace) and does inspect
the stale status, but the raised error is not a `NifiError` naming the
last known status: action.py line 35 concatenates a `str` with the status
dict, so Python raises a `TypeError` instead. -/
theorem claim_C3 :
    update_process_group envC3 "pg-1" 7 30 5 =
      some { calls := [Call.getProcessGroupDetails "pg-1",
                       Call.createVersionChangeRequest "pg-1" "rev-1"
                         { registryId := "reg-1", bucketId := "bkt-1", flowId := "flw-1",
                           version := 7 },
                       Call.getUpdateRequestStatus "req-1"],
             events := [Event.upgradeBanner "pg-1" 1 7, Event.upgradeStarting,
                        Event.upgradeProgress 0],
             result := Outcome.err
               (Err.typeError "can only concatenate str (not dict) to str") } := rfl

theorem filter_eq_nil_of_all {α : Type} {p : α → Bool} :
    ∀ l : List α, (∀ c ∈ l, p c = false) → l.filter p = [] := by
  intro l h
  induction l with
  | nil => rfl
  | cons x xs ih =>
    have hx : p x = false := h x (List.mem_cons_self _ _)
    simp only [List.filter_cons, hx, Bool.false_eq_true, if_false]
    exact ih fun c hc => h c (List.mem_cons_of_mem _ hc)

/-- A list of process-group reads filters to nothing under any predicate
that rejects reads. -/
theorem reads_filter_nil {l : List Call}
    (hl : ∀ c ∈ l, ∃ x, c = Call.getProcessGroup x) (p : Call → Bool)
    (hp : ∀ x, p (Call.getProcessGroup x) = false) : l.filter p = [] := by
  refine filter_eq_nil_of_all l ?_
  intro c hc
  obtain ⟨x, rfl⟩ := hl c hc
  exact hp x

/-- Every call appended by the polling loop is a status fetch: the loop
only extends the incoming trace with `get_update_request_status` calls. -/
theorem pollLoop_calls_ext (env : Env) (timeout startTime : Int) :
    ∀ (fuel i : Nat) (st : Status) (calls : List Call) (evs : List Event)
      (out : List Call × List Event × Status),
      pollLoop env timeout startTime fuel i st calls evs = some out →
      ∃ ext, out.1 = calls ++ ext ∧
        ∀ c ∈ ext, c = Call.getUpdateRequestStatus env.requestId := by
  intro fuel
  induction fuel with
  | zero =>
    intro i st calls evs out h
    simp [pollLoop] at h
  | succ n ih =>
    intro i st calls evs out h
    by_cases hc : st.complete = true
    · simp only [pollLoop, hc, if_true] at h
      have := Option.some.inj h
      subst this
      exact ⟨[], by simp, by simp⟩
    · by_cases ht : env.clock (i + 1) - startTime > timeout
      · simp only [pollLoop, hc, ht, Bool.false_eq_true, if_false, if_true] at h
        have := Option.some.inj h
        subst this
        exact ⟨[], by simp, by simp⟩
      · simp only [pollLoop, hc, ht, Bool.false_eq_true, if_false] at h
        obtain ⟨ext, he, hall⟩ := ih _ _ _ _ _ h
        refine ⟨Call.getUpdateRequestStatus env.requestId :: ext, ?_, ?_⟩
        · rw [he]
          simp
        · intro c hmem
          rcases List.mem_cons.mp hmem with hmem | hmem
          · exact hmem
          · exact hall c hmem

/-- Shape of the call trace of a terminating Version-Change Driver run:
the details read, then the change-version request built from that read,
then one or more status fetches. -/
theorem update_some_shape (env : Env) (pgid : String) (version timeout : Int) (fuel : Nat)
    (r : RunResult) (h : update_process_group env pgid version timeout fuel = some r) :
    ∃ ext, r.calls =
      Call.getProcessGroupDetails pgid ::
      Call.createVersionChangeRequest pgid (env.detailsOf pgid).revision
        { (env.detailsOf pgid).vci with version := version } ::
      Call.getUpdateRequestStatus env.requestId :: ext ∧
      ∀ c ∈ ext, c = Call.getUpdateRequestStatus env.requestId := by
  simp only [update_process_group] at h
  cases hp : pollLoop env timeout (env.clock 0) fuel 0 (env.status 0)
      [Call.getProcessGroupDetails pgid,
       Call.createVersionChangeRequest pgid (env.detailsOf pgid).revision
         { (env.detailsOf pgid).vci with version := version },
       Call.getUpdateRequestStatus env.requestId]
      [Event.upgradeBanner (env.detailsOf pgid).id (env.detailsOf pgid).vci.version version,
       Event.upgradeStarting] with
  | none =>
    rw [hp] at h
    simp at h
  | some out =>
    rw [hp] at h
    obtain ⟨calls, evs, last⟩ := out
    obtain ⟨ext, he, hall⟩ := pollLoop_calls_ext env timeout (env.clock 0) fuel 0
      (env.status 0) _ _ _ hp
    by_cases hl : last.complete = true
    · simp only [hl, if_true] at h
      have := Option.some.inj h
      subst this
      exact ⟨ext, by simpa using he, hall⟩
    · simp only [hl, Bool.false_eq_true, if_false] at h
      have := Option.some.inj h
      subst this
      exact ⟨ext, by simpa using he, hall⟩

/-- Filter characterization of the Version-Change Driver trace: exactly
one change-version request with the revision and binding from the details
read, exactly one details read, and nothing from the import branch. -/
theorem update_calls_filters (env : Env) (pgid : String) (version timeout : Int) (fuel : Nat)
    (r : RunResult) (h : update_process_group env pgid version timeout fuel = some r) :
    r.calls.filter Call.isCreateVersionChange =
      [Call.createVersionChangeRequest pgid (env.detailsOf pgid).revision
        { (env.detailsOf pgid).vci with version := version }] ∧
    r.calls.filter Call.isGetDetails = [Call.getProcessGroupDetails pgid] ∧
    r.calls.filter Call.isImportish = [] ∧
    r.calls.filter Call.isMutating =
      [Call.createVersionChangeRequest pgid (env.detailsOf pgid).revision
        { (env.detailsOf pgid).vci with version := version }] := by
  obtain ⟨ext, hcalls, hext⟩ := update_some_shape env pgid version timeout fuel r h
  have h1 : ext.filter Call.isCreateVersionChange = [] :=
    filter_eq_nil_of_all ext fun c hc => by rw [hext c hc]; rfl
  have h2 : ext.filter Call.isGetDetails = [] :=
    filter_eq_nil_of_all ext fun c hc => by rw [hext c hc]; rfl
  have h3 : ext.filter Call.isImportish = [] :=
    filter_eq_nil_of_all ext fun c hc => by rw [hext c hc]; rfl
  have h4 : ext.filter Call.isMutating = [] :=
    filter_eq_nil_of_all ext fun c hc => by rw [hext c hc]; rfl
  rw [hcalls]
  refine ⟨?_, ?_, ?_, ?_⟩ <;>
    simp [List.filter_cons, Call.isCreateVersionChange, Call.isGetDetails, Call.isImportish,
      Call.isMutating, h1, h2, h3, h4]

/-- A completed reconciliation run in the found branch is the traversal
reads followed by one Version-Change Driver run on the found id. -/
theorem do_execute_found (env : Env) (args : Args) (fuel : Nat) (g : PGView) (r : RunResult)
    (hg : (findGroup args.processGroupName [env.tree]).2 = some g)
    (hr : do_execute env args fuel = some r) :
    ∃ u, update_process_group env g.id args.version 30 fuel = some u ∧
      r.result = u.result ∧ r.events = u.events ∧
      r.calls = (Call.getProcessGroup "root" :: (findGroup args.processGroupName [env.tree]).1)
        ++ u.calls := by
  simp only [do_execute, hg] at hr
  cases hu : update_process_group env g.id args.version 30 fuel with
  | none =>
    rw [hu] at hr
    simp at hr
  | some u =>
    rw [hu] at hr
    have heq := Option.some.inj hr
    refine ⟨u, rfl, ?_, ?_, ?_⟩
    · rw [← heq]
    · rw [← heq]
    · rw [← heq]

/-- Filter characterization of a completed found-branch reconciliation
run. -/
theorem do_execute_found_filters (env : Env) (args : Args) (fuel : Nat) (g : PGView)
    (r : RunResult)
    (hg : (findGroup args.processGroupName [env.tree]).2 = some g)
    (hr : do_execute env args fuel = some r) :
    r.calls.filter Call.isCreateVersionChange =
      [Call.createVersionChangeRequest g.id (env.detailsOf g.id).revision
        { (env.detailsOf g.id).vci with version := args.version }] ∧
    r.calls.filter Call.isGetDetails = [Call.getProcessGroupDetails g.id] ∧
    r.calls.filter Call.isImportish = [] := by
  obtain ⟨u, hu, hres, hevs, hcalls⟩ := do_execute_found env args fuel g r hg hr
  obtain ⟨hf1, hf2, hf3, hf4⟩ := update_calls_filters env g.id args.version 30 fuel u hu
  have htrav : ∀ c ∈ (Call.getProcessGroup "root" ::
      (findGroup args.processGroupName [env.tree]).1), ∃ p, c = Call.getProcessGroup p := by
    intro c hc
    rcases List.mem_cons.mp hc with h | h
    · exact ⟨"root", h⟩
    · exact findGroup_calls _ _ c h
  rw [hcalls]
  refine ⟨?_, ?_, ?_⟩
  · rw [List.filter_append, reads_filter_nil htrav Call.isCreateVersionChange fun x => rfl, hf1]
    rfl
  · rw [List.filter_append, reads_filter_nil htrav Call.isGetDetails fun x => rfl, hf2]
    rfl
  · rw [List.filter_append, reads_filter_nil htrav Call.isImportish fun x => rfl, hf3]
    rfl

/-- Shape of the Import Executor run after registry resolution: the
incoming calls, some process-group reads, then exactly the create call and
the rename call carrying the revision returned by the create response. -/
theorem importResolved_shape (env : Env) (name bucket_id flow_id : String) (version : Int)
    (parent_pgid : Option String) (registry_id : String) (position : Option (Int × Int))
    (calls0 : List Call) :
    ∃ parent px py pre,
      (∀ c ∈ pre, ∃ x, c = Call.getProcessGroup x) ∧
      (importResolved env name bucket_id flow_id version parent_pgid registry_id position
        calls0).calls =
        calls0 ++ pre ++
          [Call.createProcessGroup parent registry_id bucket_id flow_id version px py,
           Call.changeProcessGroupName env.createResp.id name env.createResp.revision] ∧
      (importResolved env name bucket_id flow_id version parent_pgid registry_id position
        calls0).result = Outcome.ok env.renameRespId := by
  by_cases hp : optFalsy parent_pgid = true
  · cases position with
    | none =>
      refine ⟨env.tree.id,
        (get_suggested_process_group_position (env.listing env.tree.id)).1,
        (get_suggested_process_group_position (env.listing env.tree.id)).2,
        [Call.getProcessGroup "root", Call.getProcessGroup env.tree.id], ?_, ?_, ?_⟩
      · intro c hc
        rcases List.mem_cons.mp hc with h | h
        · exact ⟨"root", h⟩
        · simp at h
          exact ⟨env.tree.id, h⟩
      · simp [importResolved, hp]
      · simp [importResolved, hp]
    | some p =>
      refine ⟨env.tree.id, p.1, p.2, [Call.getProcessGroup "root"], ?_, ?_, ?_⟩
      · intro c hc
        simp at hc
        exact ⟨"root", hc⟩
      · simp [importResolved, hp]
      · simp [importResolved, hp]
  · cases position with
    | none =>
      refine ⟨parent_pgid.getD "",
        (get_suggested_process_group_position (env.listing (parent_pgid.getD ""))).1,
        (get_suggested_process_group_position (env.listing (parent_pgid.getD ""))).2,
        [Call.getProcessGroup (parent_pgid.getD "")], ?_, ?_, ?_⟩
      · intro c hc
        simp at hc
        exact ⟨parent_pgid.getD "", hc⟩
      · simp [importResolved, hp]
      · simp [importResolved, hp]
    | some p =>
      refine ⟨parent_pgid.getD "", p.1, p.2, [], ?_, ?_, ?_⟩
      · intro c hc
        simp at hc
      · simp [importResolved, hp]
      · simp [importResolved, hp]

/-- Claim C1: whenever the traversal finds a group whose display name
equals the target, a completed reconciliation run takes the upgrade
branch: exactly one change-version request is issued, carrying the found
group id and the target version; the trace holds exactly one details
read, of the found id; and no import-branch call (registry query,
bucket/flow query, create, rename) appears, whatever import parameters
were supplied. -/
theorem claim_C1 (env : Env) (args : Args) (fuel : Nat) (g : PGView) (r : RunResult)
    (hg : (findGroup args.processGroupName [env.tree]).2 = some g)
    (hr : do_execute env args fuel = some r) :
    r.calls.filter Call.isCreateVersionChange =
      [Call.createVersionChangeRequest g.id (env.detailsOf g.id).revision
        { (env.detailsOf g.id).vci with version := args.version }] ∧
    r.calls.filter Call.isGetDetails = [Call.getProcessGroupDetails g.id] ∧
    r.calls.filter Call.isImportish = [] :=
  do_execute_found_filters env args fuel g r hg hr

/-- Witness for claim C1: on the sample environment, with the existing
root group named as target and import parameters supplied, the run issues
exactly one change-version request with the found id and no import
calls. -/
theorem claim_C1_witness :
    (findGroup "NiFi Flow" [envC4.tree]).2 = some { id := "root-id", name := "NiFi Flow" } ∧
    do_execute envC4 argsUpg 5 = some rUpg ∧
    rUpg.calls.filter Call.isCreateVersionChange =
      [Call.createVersionChangeRequest "root-id" "rev-1"
        { registryId := "reg-1", bucketId := "bkt-1", flowId := "flw-1", version := 2 }] ∧
    rUpg.calls.filter Call.isImportish = [] := by
  have h1 : (findGroup "NiFi Flow" [envC4.tree]).2 =
      some { id := "root-id", name := "NiFi Flow" } := by
    simp [findGroup, envC4, PGTree.name, PGTree.id, PGTree.view]
  have h2 : do_execute envC4 argsUpg 5 = some rUpg := by
    simp [do_execute, findGroup, envC4, argsUpg, rUpg, update_process_group, pollLoop,
      PGTree.name, PGTree.id, PGTree.view]
  have h := claim_C1 envC4 argsUpg 5 { id := "root-id", name := "NiFi Flow" } rUpg h1 h2
  exact ⟨h1, h2, h.1, h.2.2⟩

/-- Claim C10: the root group is itself a search candidate — the
traversal yields the root first — so when the root display name equals
the target, a completed run takes the upgrade branch on the root id,
regardless of the import parameters. -/
theorem claim_C10 (env : Env) (args : Args) (fuel : Nat) (r : RunResult)
    (hroot : env.tree.name = args.processGroupName)
    (hr : do_execute env args fuel = some r) :
    (traverse_process_groups [env.tree]).head? = some env.tree.view ∧
    r.calls.filter Call.isCreateVersionChange =
      [Call.createVersionChangeRequest env.tree.id (env.detailsOf env.tree.id).revision
        { (env.detailsOf env.tree.id).vci with version := args.version }] ∧
    r.calls.filter Call.isImportish = [] := by
  have hb : (env.tree.name == args.processGroupName) = true := by simp [hroot]
  have hg : (findGroup args.processGroupName [env.tree]).2 = some env.tree.view := by
    simp [findGroup, hb]
  have hfirst : traverse_process_groups [env.tree] =
      env.tree.view :: traverse_process_groups ([] ++ env.tree.children) := by
    simp [traverse_process_groups]
  obtain ⟨hf1, _, hf3⟩ := do_execute_found_filters env args fuel env.tree.view r hg hr
  refine ⟨?_, ?_, hf3⟩
  · rw [hfirst]
    rfl
  · rw [PGTree.view_id] at hf1
    exact hf1

/-- Witness for claim C10: the sample root is named as target with
no import parameters at all, and the run upgrades the root id. -/
theorem claim_C10_witness :
    envC4.tree.name = argsRoot.processGroupName ∧
    do_execute envC4 argsRoot 5 = some rUpg ∧
    (traverse_process_groups [envC4.tree]).head? = some envC4.tree.view ∧
    rUpg.calls.filter Call.isCreateVersionChange =
      [Call.createVersionChangeRequest "root-id" "rev-1"
        { registryId := "reg-1", bucketId := "bkt-1", flowId := "flw-1", version := 2 }] ∧
    rUpg.calls.filter Call.isImportish = [] := by
  have h0 : envC4.tree.name = argsRoot.processGroupName := rfl
  have h2 : do_execute envC4 argsRoot 5 = some rUpg := by
    simp [do_execute, findGroup, envC4, argsRoot, rUpg, update_process_group, pollLoop,
      PGTree.name, PGTree.id, PGTree.view]
  have h := claim_C10 envC4 argsRoot 5 rUpg h0 h2
  exact ⟨h0, h2, h.1, h.2.1, h.2.2⟩

/-- Claim C6: when no group matches the target name and the bucket or the
flow parameter is falsy, the run fails with the configuration error
before any mutation: the result is the configuration `NifiError`, nothing
was printed, and every call in the trace is a process-group read — in
particular no registry query, no creation and no rename. -/
theorem claim_C6 (env : Env) (args : Args) (fuel : Nat) (r : RunResult)
    (hnf : (findGroup args.processGroupName [env.tree]).2 = none)
    (hmiss : optFalsy args.bucket = true ∨ optFalsy args.flow = true)
    (hr : do_execute env args fuel = some r) :
    r.result = Outcome.err (Err.nifiError
      "Importing Process Group needs --bucket and --flow defined") ∧
    r.events = [] ∧
    r.calls.filter Call.isMutating = [] ∧
    r.calls.filter Call.isImportish = [] ∧
    ∀ c ∈ r.calls, ∃ p, c = Call.getProcessGroup p := by
  have hcond : (optFalsy args.bucket || optFalsy args.flow) = true := by
    rcases hmiss with h | h <;> simp [h]
  simp only [do_execute, hnf, hcond, if_true] at hr
  have heq := Option.some.inj hr
  have htrav : ∀ c ∈ (Call.getProcessGroup "root" ::
      (findGroup args.processGroupName [env.tree]).1), ∃ p, c = Call.getProcessGroup p := by
    intro c hc
    rcases List.mem_cons.mp hc with h | h
    · exact ⟨"root", h⟩
    · exact findGroup_calls _ _ c h
  refine ⟨?_, ?_, ?_, ?_, ?_⟩
  · rw [← heq]
  · rw [← heq]
  · rw [← heq]
    exact reads_filter_nil htrav Call.isMutating fun x => rfl
  · rw [← heq]
    exact reads_filter_nil htrav Call.isImportish fun x => rfl
  · rw [← heq]
    exact htrav

/-- Witness for claim C6: missing group name with an absent bucket
parameter yields the configuration error on a trace of reads only. -/
theorem claim_C6_witness :
    (findGroup "missing" [envC4.tree]).2 = none ∧
    do_execute envC4 argsC6 5 = some rC6 ∧
    rC6.result = Outcome.err (Err.nifiError
      "Importing Process Group needs --bucket and --flow defined") ∧
    rC6.calls.filter Call.isMutating = [] := by
  have h1 : (findGroup "missing" [envC4.tree]).2 = none := by
    simp [findGroup, envC4, PGTree.name, PGTree.children]
  have h2 : do_execute envC4 argsC6 5 = some rC6 := by
    simp [do_execute, findGroup, envC4, argsC6, rC6, optFalsy,
      PGTree.name, PGTree.id, PGTree.view, PGTree.children]
  have h := claim_C6 envC4 argsC6 5 rC6 h1 (Or.inl rfl) h2
  exact ⟨h1, h2, h.1, h.2.2.1⟩

/-- Claim C7: registry-connection resolution of the import branch.  Given
a registry name matching no configured connection, the run fails with the
fatal error naming it, with no mutation issued.  With the name omitted,
the Import Executor demands exactly one configured connection — any other
count is the fatal ambiguity error after the single registry query — and
when exactly one connection exists, its id is the one carried by the
create call. -/
theorem claim_C7 :
    (∀ (env : Env) (args : Args) (fuel : Nat) (r : RunResult) (rname : String)
       (bkt : Bucket) (fl : RegFlow),
       (findGroup args.processGroupName [env.tree]).2 = none →
       optFalsy args.bucket = false →
       optFalsy args.flow = false →
       env.buckets.find? (fun b => b.name == args.bucket.getD "") = some bkt →
       (env.flowsOf bkt.identifier).find? (fun f => f.name == args.flow.getD "") = some fl →
       args.registry = some rname →
       (rname == "") = false →
       env.registries.find? (fun rg => rg.name == rname) = none →
       do_execute env args fuel = some r →
       r.result = Outcome.err (Err.nifiError ("Registry Client " ++ rname ++ " does not exist")) ∧
       r.calls.filter Call.isMutating = []) ∧
    (∀ (env : Env) (name b f : String) (v : Int) (pp rc : Option String)
       (pos : Option (Int × Int)),
       optFalsy rc = true → env.registries.length ≠ 1 →
       import_process_group env name b f v pp rc pos =
         { calls := [Call.getRegistryClients], events := [],
           result := Outcome.err (Err.nifiError
             "Import Process Group: must provide registry client if clients are not unique.") }) ∧
    (∀ (env : Env) (name b f : String) (v : Int) (pp rc : Option String)
       (pos : Option (Int × Int)) (reg : RegistryClientEntity),
       optFalsy rc = true → env.registries = [reg] →
       (import_process_group env name b f v pp rc pos).calls.filterMap Call.registryIdOf =
         [reg.id]) := by
  refine ⟨?_, ?_, ?_⟩
  · intro env args fuel r rname bkt fl hnf hbf hff hbk hfl hreg hrne hrnone hr
    have hcond : (optFalsy args.bucket || optFalsy args.flow) = false := by
      simp [hbf, hff]
    have hrfal : optFalsy args.registry = false := by
      rw [hreg]
      simpa [optFalsy] using hrne
    simp only [do_execute, hnf, hcond, Bool.false_eq_true, if_false, hbk, hfl, hrfal] at hr
    have hgd : args.registry.getD "" = rname := by rw [hreg]; rfl
    rw [hgd] at hr
    simp only [hrnone] at hr
    have heq := Option.some.inj hr
    have htrav : ∀ c ∈ (Call.getProcessGroup "root" ::
        (findGroup args.processGroupName [env.tree]).1), ∃ p, c = Call.getProcessGroup p := by
      intro c hc
      rcases List.mem_cons.mp hc with h | h
      · exact ⟨"root", h⟩
      · exact findGroup_calls _ _ c h
    constructor
    · rw [← heq]
    · rw [← heq]
      simp only [List.filter_append]
      rw [reads_filter_nil htrav Call.isMutating fun x => rfl]
      rfl
  · intro env name b f v pp rc pos hfal hlen
    cases hregs : env.registries with
    | nil => simp [import_process_group, hfal, hregs]
    | cons r1 rest =>
      cases rest with
      | nil =>
        rw [hregs] at hlen
        simp at hlen
      | cons r2 rest2 => simp [import_process_group, hfal, hregs]
  · intro env name b f v pp rc pos reg hfal hregs
    have himp : import_process_group env name b f v pp rc pos =
        importResolved env name b f v pp reg.id pos [Call.getRegistryClients] := by
      simp [import_process_group, hfal, hregs]
    obtain ⟨parent, px, py, pre, hpre, hcalls, hres⟩ :=
      importResolved_shape env name b f v pp reg.id pos [Call.getRegistryClients]
    rw [himp, hcalls]
    simp only [List.filterMap_append]
    have h0 : ([Call.getRegistryClients] : List Call).filterMap Call.registryIdOf = [] := rfl
    have h1 : pre.filterMap Call.registryIdOf = [] := by
      refine List.filterMap_eq_nil_iff.mpr ?_
      intro c hc
      obtain ⟨x, rfl⟩ := hpre c hc
      rfl
    rw [h0, h1]
    rfl

/-- Witness for claim C7: a missing registry name fails the run, zero
configured connections fail the Import Executor, and a unique connection
supplies the create call registry id. -/
theorem claim_C7_witness :
    do_execute envC4 argsC7 5 = some rC7 ∧
    rC7.result = Outcome.err (Err.nifiError "Registry Client nope does not exist") ∧
    rC7.calls.filter Call.isMutating = [] ∧
    import_process_group envNoReg "n" "b" "f" 1 none none none =
      { calls := [Call.getRegistryClients], events := [],
        result := Outcome.err (Err.nifiError
          "Import Process Group: must provide registry client if clients are not unique.") } ∧
    (import_process_group envC4 "n" "b" "f" 1 none none none).calls.filterMap
      Call.registryIdOf = ["rc-1"] := by
  have h1 : (findGroup "missing" [envC4.tree]).2 = none := by
    simp [findGroup, envC4, PGTree.name, PGTree.children]
  have h2 : do_execute envC4 argsC7 5 = some rC7 := by
    simp [do_execute, findGroup, envC4, argsC7, rC7, optFalsy,
      PGTree.name, PGTree.id, PGTree.view, PGTree.children]
  have ha := claim_C7.1 envC4 argsC7 5 rC7 "nope"
    { identifier := "bkt-1", name := "bucket one" }
    { identifier := "flw-1", name := "flow one" }
    h1 rfl rfl rfl rfl rfl rfl rfl h2
  have hb := claim_C7.2.1 envNoReg "n" "b" "f" 1 none none none rfl (by decide)
  have hc := claim_C7.2.2 envC4 "n" "b" "f" 1 none none none
    { id := "rc-1", name := "docker local" } rfl rfl
  exact ⟨h2, ha.1, ha.2, hb, hc⟩

/-- Claim C8: the Import Executor performs exactly two mutating calls, in
order: the create of the child group bound to the resolved
registry/bucket/flow/version at the resolved position, then the rename of
the created group carrying the revision returned by the create response
(not any pre-create revision); on success it returns the id field of the
rename response, which is the created group id when the server echoes the
renamed group. -/
theorem claim_C8 (env : Env) (name b f : String) (v : Int) (pp rc : Option String)
    (pos : Option (Int × Int))
    (hreg : optFalsy rc = false ∨ env.registries.length = 1) :
    ∃ parent rid px py,
      (import_process_group env name b f v pp rc pos).calls.filter Call.isMutating =
        [Call.createProcessGroup parent rid b f v px py,
         Call.changeProcessGroupName env.createResp.id name env.createResp.revision] ∧
      (optFalsy rc = false → rid = rc.getD "") ∧
      (import_process_group env name b f v pp rc pos).result =
        Outcome.ok env.renameRespId ∧
      (env.renameRespId = env.createResp.id →
        (import_process_group env name b f v pp rc pos).result =
          Outcome.ok env.createResp.id) := by
  by_cases hfal : optFalsy rc = true
  · have hlen : env.registries.length = 1 := by
      rcases hreg with h | h
      · rw [hfal] at h
        exact absurd h (by simp)
      · exact h
    obtain ⟨reg, hregs⟩ : ∃ reg, env.registries = [reg] := by
      cases hc : env.registries with
      | nil =>
        rw [hc] at hlen
        simp at hlen
      | cons r1 rest =>
        cases rest with
        | nil => exact ⟨r1, rfl⟩
        | cons r2 rest2 =>
          rw [hc] at hlen
          simp at hlen
    have himp : import_process_group env name b f v pp rc pos =
        importResolved env name b f v pp reg.id pos [Call.getRegistryClients] := by
      simp [import_process_group, hfal, hregs]
    obtain ⟨parent, px, py, pre, hpre, hcalls, hres⟩ :=
      importResolved_shape env name b f v pp reg.id pos [Call.getRegistryClients]
    refine ⟨parent, reg.id, px, py, ?_, ?_, ?_, ?_⟩
    · rw [himp, hcalls]
      simp only [List.filter_append]
      rw [reads_filter_nil hpre Call.isMutating fun x => rfl]
      rfl
    · intro hcon
      rw [hcon] at hfal
      exact Bool.noConfusion hfal
    · rw [himp]
      exact hres
    · intro he
      rw [himp, hres, he]
  · have hfal2 : optFalsy rc = false := by
      rwa [Bool.not_eq_true] at hfal
    have himp : import_process_group env name b f v pp rc pos =
        importResolved env name b f v pp (rc.getD "") pos [] := by
      simp [import_process_group, hfal2]
    obtain ⟨parent, px, py, pre, hpre, hcalls, hres⟩ :=
      importResolved_shape env name b f v pp (rc.getD "") pos []
    refine ⟨parent, rc.getD "", px, py, ?_, fun _ => rfl, ?_, ?_⟩
    · rw [himp, hcalls]
      simp only [List.nil_append, List.filter_append]
      rw [reads_filter_nil hpre Call.isMutating fun x => rfl]
      rfl
    · rw [himp]
      exact hres
    · intro he
      rw [himp, hres, he]

/-- Witness for claim C8, with a supplied registry client id, parent and
position. -/
theorem claim_C8_witness :
    (optFalsy (some "rc-9") = false ∨ envC4.registries.length = 1) ∧
    (∃ parent rid px py,
      (import_process_group envC4 "grp" "b1" "f1" 3 (some "par") (some "rc-9")
        (some (7, 8))).calls.filter Call.isMutating =
        [Call.createProcessGroup parent rid "b1" "f1" 3 px py,
         Call.changeProcessGroupName envC4.createResp.id "grp" envC4.createResp.revision] ∧
      (optFalsy (some "rc-9") = false → rid = (some "rc-9" : Option String).getD "") ∧
      (import_process_group envC4 "grp" "b1" "f1" 3 (some "par") (some "rc-9")
        (some (7, 8))).result = Outcome.ok envC4.renameRespId ∧
      (envC4.renameRespId = envC4.createResp.id →
        (import_process_group envC4 "grp" "b1" "f1" 3 (some "par") (some "rc-9")
          (some (7, 8))).result = Outcome.ok envC4.createResp.id)) :=
  ⟨Or.inl rfl,
   claim_C8 envC4 "grp" "b1" "f1" 3 (some "par") (some "rc-9") (some (7, 8)) (Or.inl rfl)⟩

/-- Claim C9: every mutating call against an existing group carries the
revision token from the most recent read of that group.  The
change-version request directly follows the details read and carries that
read revision together with the read version-control binding in which
only the version field is replaced; the rename after import carries the
revision returned by the create call, with only non-mutating calls before
the create. -/
theorem claim_C9 :
    (∀ (env : Env) (pgid : String) (version timeout : Int) (fuel : Nat) (r : RunResult),
      update_process_group env pgid version timeout fuel = some r →
      ∃ rest, r.calls =
        Call.getProcessGroupDetails pgid ::
        Call.createVersionChangeRequest pgid (env.detailsOf pgid).revision
          { (env.detailsOf pgid).vci with version := version } :: rest) ∧
    (∀ (env : Env) (name b f : String) (v : Int) (pp rc : Option String)
       (pos : Option (Int × Int)),
      optFalsy rc = false ∨ env.registries.length = 1 →
      ∃ parent rid px py pre,
        (import_process_group env name b f v pp rc pos).calls =
          pre ++ [Call.createProcessGroup parent rid b f v px py,
                  Call.changeProcessGroupName env.createResp.id name env.createResp.revision] ∧
        ∀ c ∈ pre, c.isMutating = false) := by
  constructor
  · intro env pgid version timeout fuel r h
    obtain ⟨ext, hcalls, _⟩ := update_some_shape env pgid version timeout fuel r h
    exact ⟨Call.getUpdateRequestStatus env.requestId :: ext, by rw [hcalls]⟩
  · intro env name b f v pp rc pos hreg
    by_cases hfal : optFalsy rc = true
    · have hlen : env.registries.length = 1 := by
        rcases hreg with h | h
        · rw [hfal] at h
          exact absurd h (by simp)
        · exact h
      obtain ⟨reg, hregs⟩ : ∃ reg, env.registries = [reg] := by
        cases hc : env.registries with
        | nil =>
          rw [hc] at hlen
          simp at hlen
        | cons r1 rest =>
          cases rest with
          | nil => exact ⟨r1, rfl⟩
          | cons r2 rest2 =>
            rw [hc] at hlen
            simp at hlen
      have himp : import_process_group env name b f v pp rc pos =
          importResolved env name b f v pp reg.id pos [Call.getRegistryClients] := by
        simp [import_process_group, hfal, hregs]
      obtain ⟨parent, px, py, pre, hpre, hcalls, _⟩ :=
        importResolved_shape env name b f v pp reg.id pos [Call.getRegistryClients]
      refine ⟨parent, reg.id, px, py, [Call.getRegistryClients] ++ pre, ?_, ?_⟩
      · rw [himp, hcalls]
      · intro c hc
        rcases List.mem_append.mp hc with h | h
        · simp at h
          rw [h]
          rfl
        · obtain ⟨x, rfl⟩ := hpre c h
          rfl
    · have hfal2 : optFalsy rc = false := by
        rwa [Bool.not_eq_true] at hfal
      have himp : import_process_group env name b f v pp rc pos =
          importResolved env name b f v pp (rc.getD "") pos [] := by
        simp [import_process_group, hfal2]
      obtain ⟨parent, px, py, pre, hpre, hcalls, _⟩ :=
        importResolved_shape env name b f v pp (rc.getD "") pos []
      refine ⟨parent, rc.getD "", px, py, pre, ?_, ?_⟩
      · rw [himp, hcalls]
        simp
      · intro c hc
        obtain ⟨x, rfl⟩ := hpre c hc
        rfl

/-- Witness for claim C9, on a concrete driver run and a concrete import
run. -/
theorem claim_C9_witness :
    (update_process_group envC4 "pg-9" 4 30 5 = some rC9u ∧
     ∃ rest, rC9u.calls =
       Call.getProcessGroupDetails "pg-9" ::
       Call.createVersionChangeRequest "pg-9" (envC4.detailsOf "pg-9").revision
         { (envC4.detailsOf "pg-9").vci with version := 4 } :: rest) ∧
    ((optFalsy (some "rc-9") = false ∨ envC4.registries.length = 1) ∧
     ∃ parent rid px py pre,
       (import_process_group envC4 "grp" "b1" "f1" 3 none (some "rc-9") none).calls =
         pre ++ [Call.createProcessGroup parent rid "b1" "f1" 3 px py,
                 Call.changeProcessGroupName envC4.createResp.id "grp"
                   envC4.createResp.revision] ∧
       ∀ c ∈ pre, c.isMutating = false) :=
  ⟨⟨rfl, claim_C9.1 envC4 "pg-9" 4 30 5 rC9u rfl⟩,
   ⟨Or.inl rfl, claim_C9.2 envC4 "grp" "b1" "f1" 3 none (some "rc-9") none (Or.inl rfl)⟩⟩

theorem find?_map_snd (l : List (Nat × PGView)) (p : PGView → Bool) :
    (l.map Prod.snd).find? p = (l.find? fun x => p x.2).map Prod.snd := by
  induction l with
  | nil => rfl
  | cons x xs ih =>
    cases hv : p x.2 with
    | true => simp [List.find?, hv]
    | false => simp [List.find?, hv, ih]

/-- Claim C2: the name search is breadth first from the given root.  If a
node named N sits at depth d and no node named N sits at a shallower
depth, the search finds a node named N at depth d — the node itself when
it is the unique one of that name at that depth.  If no node is named N,
the search returns none, and the traversal visits every node of the tree
exactly once (it is a permutation of the preorder node listing). -/
theorem claim_C2 (t : PGTree) (N : String) :
    (∀ p ∈ withDepths 0 t, p.2.name = N →
      (∀ q ∈ withDepths 0 t, q.2.name = N → p.1 ≤ q.1) →
      ∃ w, (p.1, w) ∈ withDepths 0 t ∧ w.name = N ∧ find_by_name t N = some w) ∧
    (∀ p ∈ withDepths 0 t, p.2.name = N →
      (∀ q ∈ withDepths 0 t, q.2.name = N → p.1 ≤ q.1) →
      (∀ q ∈ withDepths 0 t, q.1 = p.1 → q.2.name = N → q.2 = p.2) →
      find_by_name t N = some p.2) ∧
    ((∀ p ∈ withDepths 0 t, p.2.name ≠ N) →
      find_by_name t N = none ∧
      (traverse_process_groups [t]).Perm ((withDepths 0 t).map Prod.snd)) := by
  have hperm : (traverseD [(0, t)]).Perm (withDepths 0 t) := by
    have h := traverseD_perm [(0, t)]
    simpa [allNodes] using h
  have hproj : traverse_process_groups [t] = (traverseD [(0, t)]).map Prod.snd := by
    have h := traverseD_map_snd [(0, t)]
    simpa using h.symm
  have hsorted : (traverseD [(0, t)]).Pairwise (fun a b => a.1 ≤ b.1) := by
    refine traverseD_sorted [(0, t)] ?_ ?_
    · simp
    · intro a ha b hb
      simp only [List.mem_singleton] at ha hb
      subst ha
      subst hb
      simp
  have hkey : find_by_name t N =
      ((traverseD [(0, t)]).find? fun x => x.2.name == N).map Prod.snd := by
    rw [find_by_name, hproj, find?_map_snd]
  have partA : ∀ p ∈ withDepths 0 t, p.2.name = N →
      (∀ q ∈ withDepths 0 t, q.2.name = N → p.1 ≤ q.1) →
      ∃ w, (p.1, w) ∈ withDepths 0 t ∧ w.name = N ∧ find_by_name t N = some w := by
    intro p hp hpN hmin
    have hpmem : p ∈ traverseD [(0, t)] := hperm.mem_iff.mpr hp
    cases hL : (traverseD [(0, t)]).find? (fun x => x.2.name == N) with
    | none =>
      exfalso
      have hcontra := List.find?_eq_none.mp hL p hpmem
      apply hcontra
      simp [hpN]
    | some a =>
      have hpa := List.find?_some hL
      have haN : a.2.name = N := by simpa using hpa
      have hamem : a ∈ traverseD [(0, t)] := List.mem_of_find?_eq_some hL
      have hawd : a ∈ withDepths 0 t := hperm.mem_iff.mp hamem
      have h1 : p.1 ≤ a.1 := hmin a hawd haN
      have h2 : a = p ∨ a.1 ≤ p.1 :=
        find?_first_min _ _ hsorted a hL p hpmem (by simp [hpN])
      have hda : a.1 = p.1 := by
        rcases h2 with h2 | h2
        · rw [h2]
        · omega
      refine ⟨a.2, ?_, haN, ?_⟩
      · rw [← hda]
        simpa using hawd
      · rw [hkey, hL]
        rfl
  refine ⟨partA, ?_, ?_⟩
  · intro p hp hpN hmin huniq
    obtain ⟨w, hwmem, hwN, hwfind⟩ := partA p hp hpN hmin
    have hw : w = p.2 := huniq (p.1, w) hwmem rfl hwN
    rw [hwfind, hw]
  · intro hnone
    have hLnone : (traverseD [(0, t)]).find? (fun x => x.2.name == N) = none := by
      refine List.find?_eq_none.mpr ?_
      intro x hx
      have hxwd : x ∈ withDepths 0 t := hperm.mem_iff.mp hx
      have hne := hnone x hxwd
      simp [hne]
    constructor
    · rw [hkey, hLnone]
      rfl
    · rw [hproj]
      exact hperm.map Prod.snd

/-- Witness for claim C2, on the tree root alpha with children beta and
gamma: the unique node named beta at minimal depth 1 is found, and a name
absent from the tree yields none with the traversal a permutation of the
node listing. -/
theorem claim_C2_witness :
    ((1, ({ id := "x", name := "beta" } : PGView)) ∈ withDepths 0 tC2 ∧
     (∀ q ∈ withDepths 0 tC2, q.2.name = "beta" → 1 ≤ q.1) ∧
     (∀ q ∈ withDepths 0 tC2, q.1 = 1 → q.2.name = "beta" →
       q.2 = { id := "x", name := "beta" })) ∧
    find_by_name tC2 "beta" = some { id := "x", name := "beta" } ∧
    (∀ p ∈ withDepths 0 tC2, p.2.name ≠ "zzz") ∧
    find_by_name tC2 "zzz" = none ∧
    (traverse_process_groups [tC2]).Perm ((withDepths 0 tC2).map Prod.snd) := by
  have hB := (claim_C2 tC2 "beta").2.1 (1, { id := "x", name := "beta" })
    (by decide) (by decide) (by decide) (by decide)
  have hC := (claim_C2 tC2 "zzz").2.2 (by decide)
  exact ⟨⟨by decide, by decide, by decide⟩, hB, by decide, hC.1, hC.2⟩

end Nifi
